import Mathlib

set_option maxRecDepth 10000

/-! Verification of ring.h (github.com/zhoukk/ring), a bounded power-of-two
circular FIFO queue with single/multi producer and consumer paths.

The embedding models the unsigned 32-bit wrapping counters as naturals reduced
modulo 2 ^ 32, the opaque pointer-sized handles as naturals, and the slot array
as a list. The multi-producer and multi-consumer paths are modeled as executed
sequentially: the compare-and-swap succeeds on its first attempt and the
publish spin loop either passes immediately or spins forever (returned as
none). -/

namespace RingSpec

/-- The modulus of unsigned 32-bit arithmetic. -/
def U32 : Nat := 4294967296

/-- Unsigned 32-bit addition. -/
def uadd (a b : Nat) : Nat := (a + b) % U32

/-- Unsigned 32-bit subtraction. -/
def usub (a b : Nat) : Nat := (a % U32 + (U32 - b % U32)) % U32

/-- RING_F_SP: single-producer flag. -/
def RING_F_SP : Nat := 0x01

/-- RING_F_SC: single-consumer flag. -/
def RING_F_SC : Nat := 0x02

/-- RING_B_FIXED: all-or-nothing behavior. -/
def RING_B_FIXED : Nat := 0

/-- RING_B_VARIABLE: best-effort behavior. -/
def RING_B_VARIABLE : Nat := 1

/-- RING_SIZE_MASK: the maximum supported count. -/
def RING_SIZE_MASK : Nat := 0x0fffffff

/-- Size in bytes of struct ring on the reference platform (LP64 pointers,
CACHE_LINE_SIZE 64): the two cache-line aligned 20-byte metadata blocks are
padded to 64 bytes each and the flexible slot array starts at offset 128. -/
def sizeof_struct_ring : Nat := 128

/-- Size in bytes of one slot, a void pointer on LP64. -/
def sizeof_void_ptr : Nat := 8

/-- POWEROF2 macro: (((x)-1) & (x)) == 0 on unsigned x. Note that this
evaluates to true at x = 0 because the unsigned subtraction wraps. -/
def POWEROF2 (x : Nat) : Bool := (usub x 1 &&& x % U32) == 0

/-- ring_memsize: bytes needed for a ring of the given count, or 0 when the
count is rejected. -/
def ring_memsize (count : Nat) : Nat :=
  if !POWEROF2 count || decide (count > RING_SIZE_MASK) then 0
  else (sizeof_struct_ring + count * sizeof_void_ptr) % U32

/-- struct ring. prod.size and cons.size always hold the same value, as do
prod.mask and cons.mask (ring_init writes both pairs from count and nothing
else ever writes them), so the model stores each of them once. Handles are
modeled as naturals. -/
@[ext]
structure ring where
  sp : Bool
  sc : Bool
  size : Nat
  mask : Nat
  prodHead : Nat
  prodTail : Nat
  consHead : Nat
  consTail : Nat
  ring : List Nat
deriving DecidableEq

/-- ring_init: store the two flags, the size, the mask and zeroed counters.
The caller supplies the slot memory region mem; ring_init does not write the
slot array (the C memset covers the header only). -/
def ring_init (count flags : Nat) (mem : List Nat) : ring where
  sp := (flags &&& RING_F_SP) != 0
  sc := (flags &&& RING_F_SC) != 0
  size := count
  mask := usub count 1
  prodHead := 0
  prodTail := 0
  consHead := 0
  consTail := 0
  ring := mem

/-- Sequential store of a list of values into consecutive slots starting at
idx. The four-way unrolled copy loop of PUSH_PTRS together with its switch
tail writes exactly these slots in this order. -/
def writeSeq : List Nat → Nat → List Nat → List Nat
  | rg, _, [] => rg
  | rg, idx, x :: xs => writeSeq (rg.set idx x) (idx + 1) xs

/-- PUSH_PTRS: store n handles from objs into the slot array starting at idx.
When idx + n < size the copy is contiguous; otherwise the first loop fills
slots idx up to size and the second loop wraps to slot 0 with the remaining
handles. -/
def push_ptrs (rg : List Nat) (size idx : Nat) (objs : List Nat) (n : Nat) : List Nat :=
  if idx + n < size then
    writeSeq rg idx (objs.take n)
  else
    writeSeq (writeSeq rg idx (objs.take (size - idx))) 0 ((objs.take n).drop (size - idx))

/-- Sequential load of n slots starting at idx. -/
def readSeq (rg : List Nat) (idx n : Nat) : List Nat :=
  (List.range n).map fun i => rg.getD (idx + i) 0

/-- POP_PTRS: load n handles from the slot array starting at idx, with the
same contiguous/wrapped split as PUSH_PTRS. -/
def pop_ptrs (rg : List Nat) (size idx n : Nat) : List Nat :=
  if idx + n < size then
    readSeq rg idx n
  else
    readSeq rg idx (size - idx) ++ readSeq rg 0 (n - (size - idx))

/-- ring_sp_push: single-producer push. Returns the updated ring and the
number of handles pushed. -/
def ring_sp_push (r : ring) (objs : List Nat) (n : Nat) (behavior : Nat) : ring × Nat :=
  let mask := r.mask
  let prod_head := r.prodHead
  let cons_tail := r.consTail
  let avail := usub (uadd mask cons_tail) prod_head
  if n > avail ∧ behavior = RING_B_FIXED then (r, 0)
  else if n > avail ∧ avail = 0 then (r, 0)
  else
    let n := if n > avail then avail else n
    let prod_next := uadd prod_head n
    ({ r with prodHead := prod_next,
              prodTail := prod_next,
              ring := push_ptrs r.ring r.size (prod_head &&& mask) objs n }, n)

/-- ring_mp_push executed sequentially: the CAS succeeds on its first attempt;
the publish spin loop terminates exactly when prod.tail already equals the
head snapshot, and otherwise spins forever (modeled as none). -/
def ring_mp_push (r : ring) (objs : List Nat) (n : Nat) (behavior : Nat) :
    Option (ring × Nat) :=
  let mask := r.mask
  let prod_head := r.prodHead
  let cons_tail := r.consTail
  let avail := usub (uadd mask cons_tail) prod_head
  if n > avail ∧ behavior = RING_B_FIXED then some (r, 0)
  else if n > avail ∧ avail = 0 then some (r, 0)
  else
    let n := if n > avail then avail else n
    let prod_next := uadd prod_head n
    let r1 := { r with prodHead := prod_next,
                       ring := push_ptrs r.ring r.size (prod_head &&& mask) objs n }
    if r1.prodTail = prod_head then some ({ r1 with prodTail := prod_next }, n)
    else none

/-- ring_push: dispatch on the single-producer flag. -/
def ring_push (r : ring) (objs : List Nat) (n : Nat) (behavior : Nat) :
    Option (ring × Nat) :=
  if r.sp then some (ring_sp_push r objs n behavior)
  else ring_mp_push r objs n behavior

/-- ring_sc_pop: single-consumer pop. Returns the updated ring, the handles
stored into the caller buffer, and the count popped. Note the C code reads
r->prod.mask here; the model's single mask field is that value. -/
def ring_sc_pop (r : ring) (n : Nat) (behavior : Nat) : ring × List Nat × Nat :=
  let mask := r.mask
  let cons_head := r.consHead
  let prod_tail := r.prodTail
  let avail := usub prod_tail cons_head
  if n > avail ∧ behavior = RING_B_FIXED then (r, [], 0)
  else if n > avail ∧ avail = 0 then (r, [], 0)
  else
    let n := if n > avail then avail else n
    let cons_next := uadd cons_head n
    ({ r with consHead := cons_next, consTail := cons_next },
     pop_ptrs r.ring r.size (cons_head &&& mask) n, n)

/-- ring_mc_pop executed sequentially, with the same conventions as
ring_mp_push. -/
def ring_mc_pop (r : ring) (n : Nat) (behavior : Nat) :
    Option (ring × List Nat × Nat) :=
  let mask := r.mask
  let cons_head := r.consHead
  let prod_tail := r.prodTail
  let avail := usub prod_tail cons_head
  if n > avail ∧ behavior = RING_B_FIXED then some (r, [], 0)
  else if n > avail ∧ avail = 0 then some (r, [], 0)
  else
    let n := if n > avail then avail else n
    let cons_next := uadd cons_head n
    let r1 := { r with consHead := cons_next }
    if r1.consTail = cons_head then
      some ({ r1 with consTail := cons_next },
            pop_ptrs r.ring r.size (cons_head &&& mask) n, n)
    else none

/-- ring_pop: dispatch on the single-consumer flag. -/
def ring_pop (r : ring) (n : Nat) (behavior : Nat) :
    Option (ring × List Nat × Nat) :=
  if r.sc then some (ring_sc_pop r n behavior)
  else ring_mc_pop r n behavior

/-- ring_full: true iff ((cons.tail - prod.tail - 1) & mask) == 0. -/
def ring_full (r : ring) : Bool := (usub (usub r.consTail r.prodTail) 1) &&& r.mask == 0

/-- ring_empty: true iff cons.tail == prod.tail. -/
def ring_empty (r : ring) : Bool := r.consTail == r.prodTail

/-- ring_count: (prod.tail - cons.tail) & mask. -/
def ring_count (r : ring) : Nat := (usub r.prodTail r.consTail) &&& r.mask

/-- ring_avail: (cons.tail - prod.tail - 1) & mask. -/
def ring_avail (r : ring) : Nat := (usub (usub r.consTail r.prodTail) 1) &&& r.mask

/-- Distance from the consumer tail to the producer tail: the number of
published, unconsumed handles. -/
def dist (r : ring) : Nat := usub r.prodTail r.consTail

/-- Logical FIFO contents of the ring: the pending handles starting at the
consumer tail index. -/
def ringAbs (r : ring) : List Nat :=
  pop_ptrs r.ring r.size (r.consTail &&& r.mask) (ring_count r)

/-- State invariant of the sequential model: power-of-two size within the
size mask, mask and slot-array length consistent with the size, 32-bit
counters, quiescence (head = tail on both sides, which holds between any two
sequential operations), and occupancy at most mask. -/
structure Valid (r : ring) : Prop where
  size_pow : ∃ k, k ≤ 28 ∧ r.size = 2 ^ k
  mask_eq : r.mask = r.size - 1
  len_eq : r.ring.length = r.size
  ph_lt : r.prodHead < U32
  pt_lt : r.prodTail < U32
  ch_lt : r.consHead < U32
  ct_lt : r.consTail < U32
  ph_eq : r.prodHead = r.prodTail
  ch_eq : r.consHead = r.consTail
  dist_le : dist r ≤ r.mask

theorem usub_lt (a b : Nat) : usub a b < U32 := by
  simp only [usub, U32]; omega

theorem uadd_lt (a b : Nat) : uadd a b < U32 := by
  simp only [uadd, U32]; omega

theorem usub_self_add (b d : Nat) : usub ((b + d) % U32) b = d % U32 := by
  simp only [usub, U32]; omega

theorem usub_zero_iff (a b : Nat) (ha : a < U32) (hb : b < U32) :
    usub a b = 0 ↔ a = b := by
  simp only [usub, U32] at *; omega

theorem uadd_usub (pt ct n : Nat) :
    usub (uadd pt n) ct = (usub pt ct + n) % U32 := by
  simp only [usub, uadd, U32]; omega

theorem usub_uadd_right (pt ct n : Nat) (h : n ≤ usub pt ct) :
    usub pt (uadd ct n) = usub pt ct - n := by
  simp only [usub, uadd, U32] at *; omega

theorem usub_avail (mask ct pt : Nat) (hm : mask < U32) (hd : usub pt ct ≤ mask) :
    usub (uadd mask ct) pt = mask - usub pt ct := by
  simp only [usub, uadd, U32] at *; omega

theorem usub_one_raw (ct pt : Nat) :
    usub (usub ct pt) 1 = (2 * U32 - usub pt ct - 1) % U32 := by
  simp only [usub, U32]; omega

theorem usub_add_cancel (a b : Nat) : (b + usub a b) % U32 = a % U32 := by
  simp only [usub, U32]; omega

theorem mod_of_mod_U32 {s : Nat} (hs : s ∣ U32) {x y : Nat}
    (h : x % U32 = y % U32) : x % s = y % s := by
  rw [← Nat.mod_mod_of_dvd x hs, h, Nat.mod_mod_of_dvd y hs]

theorem dvd_sub_one_mod {s N d : Nat} (hs : 0 < s) (hdvd : s ∣ N) (hd : d + 1 ≤ N) :
    (N - d - 1) % s = s - 1 - d % s := by
  obtain ⟨m, rfl⟩ := hdvd
  have h1 : s * (d / s) + d % s = d := Nat.div_add_mod d s
  have h2 : d % s < s := Nat.mod_lt _ hs
  have h3 : d / s < m := by
    by_contra hc
    push_neg at hc
    have := Nat.mul_le_mul_left s hc
    omega
  have h4 : s * (d / s) + s ≤ s * m := by
    have h5 : s * (d / s + 1) ≤ s * m := Nat.mul_le_mul_left s h3
    have h6 : s * (d / s + 1) = s * (d / s) + s := by ring
    omega
  have key : s * m - d - 1 = (s - 1 - d % s) + s * (m - d / s - 1) := by
    have h7 : s * (m - d / s - 1) = s * m - s * (d / s) - s := by
      rw [Nat.mul_sub, Nat.mul_sub, Nat.mul_one]
    omega
  rw [key, Nat.add_mul_mod_self_left, Nat.mod_eq_of_lt (by omega)]

theorem add_mod_sub_mod {s : Nat} (hs : 0 < s) (a b : Nat) (hba : b ≤ a) :
    (a + (s - b % s)) % s = (a - b) % s := by
  have h1 : s * (b / s) + b % s = b := Nat.div_add_mod b s
  have h2 : b % s < s := Nat.mod_lt _ hs
  have key : a + (s - b % s) = (a - b) + s * (b / s + 1) := by
    have h3 : s * (b / s + 1) = s * (b / s) + s := by ring
    omega
  rw [key, Nat.add_mul_mod_self_left]

theorem and_mask_two_pow (x k : Nat) : x &&& (2 ^ k - 1) = x % 2 ^ k :=
  Nat.and_pow_two_sub_one_eq_mod x k

theorem writeSeq_length (xs : List Nat) (rg : List Nat) (idx : Nat) :
    (writeSeq rg idx xs).length = rg.length := by
  induction xs generalizing rg idx with
  | nil => rfl
  | cons x xs ih =>
    show (writeSeq (rg.set idx x) (idx + 1) xs).length = rg.length
    rw [ih, List.length_set]

theorem writeSeq_getD (xs : List Nat) (rg : List Nat) (idx j : Nat) (hj : j < rg.length) :
    (writeSeq rg idx xs).getD j 0 =
      if idx ≤ j ∧ j < idx + xs.length then xs.getD (j - idx) 0 else rg.getD j 0 := by
  induction xs generalizing rg idx with
  | nil =>
    show rg.getD j 0 = _
    rw [if_neg (by simp only [List.length_nil]; omega)]
  | cons x xs ih =>
    have hj' : j < (rg.set idx x).length := by rwa [List.length_set]
    show (writeSeq (rg.set idx x) (idx + 1) xs).getD j 0 = _
    rw [ih (rg.set idx x) (idx + 1) hj']
    by_cases hij : j = idx
    · subst hij
      rw [if_neg (by omega), if_pos (by simp only [List.length_cons]; omega)]
      rw [List.getD_eq_getElem _ _ hj', List.getElem_set_self]
      simp
    · have hset : (rg.set idx x).getD j 0 = rg.getD j 0 := by
        rw [List.getD_eq_getElem _ _ hj', List.getD_eq_getElem _ _ hj,
          List.getElem_set_ne (fun h => hij h.symm)]
      by_cases hle : idx + 1 ≤ j
      · by_cases hlt : j < idx + 1 + xs.length
        · rw [if_pos ⟨hle, hlt⟩, if_pos (by simp only [List.length_cons]; omega)]
          have hsub : j - idx = (j - (idx + 1)) + 1 := by omega
          rw [hsub, List.getD_cons_succ]
        · rw [if_neg (by omega), if_neg (by simp only [List.length_cons]; omega), hset]
      · rw [if_neg (by omega), if_neg (by omega), hset]

theorem push_ptrs_length (rg : List Nat) (size idx : Nat) (objs : List Nat) (n : Nat) :
    (push_ptrs rg size idx objs n).length = rg.length := by
  unfold push_ptrs
  split <;> rw [writeSeq_length] <;> rw [writeSeq_length]

theorem push_ptrs_getD (rg objs : List Nat) (size idx n j : Nat)
    (hidx : idx < size) (hn : n ≤ size) (hlen : rg.length = size)
    (hobjs : n ≤ objs.length) (hj : j < size) :
    (push_ptrs rg size idx objs n).getD j 0 =
      if (j + (size - idx)) % size < n
      then objs.getD ((j + (size - idx)) % size) 0
      else rg.getD j 0 := by
  have hs : 0 < size := Nat.lt_of_le_of_lt (Nat.zero_le idx) hidx
  have hjlen : j < rg.length := hlen ▸ hj
  unfold push_ptrs
  split
  case isTrue h =>
    rw [writeSeq_getD _ _ _ _ hjlen]
    have htk : (objs.take n).length = n := by
      rw [List.length_take]; omega
    rw [htk]
    by_cases hc : idx ≤ j ∧ j < idx + n
    · have hoff : j + (size - idx) = (j - idx) + size := by omega
      have hmod : (j + (size - idx)) % size = j - idx := by
        rw [hoff, Nat.add_mod_right, Nat.mod_eq_of_lt (by omega)]
      rw [if_pos hc, hmod, if_pos (by omega)]
      have h1 : j - idx < (objs.take n).length := by omega
      have h2 : j - idx < objs.length := by omega
      rw [List.getD_eq_getElem _ _ h1, List.getD_eq_getElem _ _ h2, List.getElem_take]
    · rw [if_neg hc]
      by_cases hlo : j < idx
      · have hmod : (j + (size - idx)) % size = j + (size - idx) :=
          Nat.mod_eq_of_lt (by omega)
        rw [hmod, if_neg (by omega)]
      · have hoff : j + (size - idx) = (j - idx) + size := by omega
        have hmod : (j + (size - idx)) % size = j - idx := by
          rw [hoff, Nat.add_mod_right, Nat.mod_eq_of_lt (by omega)]
        rw [hmod, if_neg (by omega)]
  case isFalse h =>
    have hk0 : size - idx ≤ n := by omega
    have hinlen : j < (writeSeq rg idx (objs.take (size - idx))).length := by
      rw [writeSeq_length]; omega
    rw [writeSeq_getD _ _ _ _ hinlen]
    have hdlen : ((objs.take n).drop (size - idx)).length = n - (size - idx) := by
      rw [List.length_drop, List.length_take]; omega
    rw [hdlen]
    by_cases hc : j < n - (size - idx)
    · rw [if_pos (by omega)]
      have hmod : (j + (size - idx)) % size = j + (size - idx) :=
        Nat.mod_eq_of_lt (by omega)
      rw [hmod, if_pos (by omega)]
      have h1 : j - 0 < ((objs.take n).drop (size - idx)).length := by omega
      have h2 : (size - idx) + (j - 0) < (objs.take n).length := by
        rw [List.length_take]; omega
      have h3 : (size - idx) + (j - 0) < objs.length := by omega
      have hix : j + (size - idx) = (size - idx) + (j - 0) := by omega
      rw [hix, List.getD_eq_getElem _ _ h1, List.getElem_drop, List.getD_eq_getElem _ _ h3]
      exact List.getElem_take _
    · rw [if_neg (by omega)]
      rw [writeSeq_getD _ _ _ _ hjlen]
      have htk : (objs.take (size - idx)).length = size - idx := by
        rw [List.length_take]; omega
      rw [htk]
      by_cases hlo : idx ≤ j
      · rw [if_pos (by omega)]
        have hoff : j + (size - idx) = (j - idx) + size := by omega
        have hmod : (j + (size - idx)) % size = j - idx := by
          rw [hoff, Nat.add_mod_right, Nat.mod_eq_of_lt (by omega)]
        rw [hmod, if_pos (by omega)]
        have h1 : j - idx < (objs.take (size - idx)).length := by omega
        have h2 : j - idx < objs.length := by omega
        rw [List.getD_eq_getElem _ _ h1, List.getD_eq_getElem _ _ h2, List.getElem_take]
      · rw [if_neg (by omega)]
        have hmod : (j + (size - idx)) % size = j + (size - idx) :=
          Nat.mod_eq_of_lt (by omega)
        rw [hmod, if_neg (by omega)]

theorem pop_ptrs_length (rg : List Nat) (size idx n : Nat) :
    (pop_ptrs rg size idx n).length = n := by
  unfold pop_ptrs readSeq
  split
  · simp
  · simp only [List.length_append, List.length_map, List.length_range]
    omega

theorem pop_ptrs_eq (rg : List Nat) (size idx n : Nat) (hidx : idx < size) (hn : n ≤ size) :
    pop_ptrs rg size idx n = (List.range n).map fun i => rg.getD ((idx + i) % size) 0 := by
  have hs : 0 < size := Nat.lt_of_le_of_lt (Nat.zero_le idx) hidx
  unfold pop_ptrs readSeq
  split
  case isTrue h =>
    apply List.ext_getElem (by simp)
    intro i h1 h2
    simp only [List.getElem_map, List.getElem_range]
    congr 1
    rw [Nat.mod_eq_of_lt (by simp at h1; omega)]
  case isFalse h =>
    apply List.ext_getElem (by simp; omega)
    intro i h1 h2
    have hi : i < n := by simp at h2; omega
    simp only [List.getElem_map, List.getElem_range]
    by_cases hc : i < size - idx
    · rw [List.getElem_append_left (by simp; omega)]
      simp only [List.getElem_map, List.getElem_range]
      congr 1
      rw [Nat.mod_eq_of_lt (by omega)]
    · rw [List.getElem_append_right (by simp; omega)]
      simp only [List.getElem_map, List.getElem_range, List.length_map, List.length_range]
      congr 1
      have hoff : idx + i = (i - (size - idx)) + size := by omega
      rw [hoff, Nat.add_mod_right, Nat.mod_eq_of_lt (by omega)]
      omega

theorem Valid.size_pos {r : ring} (h : Valid r) : 0 < r.size := by
  obtain ⟨k, _, hsz⟩ := h.size_pow
  rw [hsz]
  exact Nat.pos_pow_of_pos k (by omega)

theorem Valid.size_le {r : ring} (h : Valid r) : r.size ≤ 2 ^ 28 := by
  obtain ⟨k, hk, hsz⟩ := h.size_pow
  rw [hsz]
  exact Nat.pow_le_pow_right (by omega) hk

theorem Valid.size_dvd {r : ring} (h : Valid r) : r.size ∣ U32 := by
  obtain ⟨k, hk, hsz⟩ := h.size_pow
  rw [hsz]
  show 2 ^ k ∣ U32
  have : U32 = 2 ^ 32 := by decide
  rw [this]
  exact Nat.pow_dvd_pow 2 (by omega)

theorem Valid.mask_lt {r : ring} (h : Valid r) : r.mask < r.size := by
  have h1 := h.size_pos
  rw [h.mask_eq]
  omega

theorem Valid.mask_lt_U32 {r : ring} (h : Valid r) : r.mask < U32 := by
  have h1 := h.size_le
  have h2 := h.mask_lt
  have : (2 : Nat) ^ 28 < U32 := by decide
  omega

theorem Valid.and_mask {r : ring} (h : Valid r) (x : Nat) :
    x &&& r.mask = x % r.size := by
  obtain ⟨k, _, hsz⟩ := h.size_pow
  rw [h.mask_eq, hsz, and_mask_two_pow]

theorem Valid.count_eq {r : ring} (h : Valid r) : ring_count r = dist r := by
  rw [ring_count, h.and_mask]
  exact Nat.mod_eq_of_lt (Nat.lt_of_le_of_lt h.dist_le h.mask_lt)

theorem Valid.avail_eq {r : ring} (h : Valid r) : ring_avail r = r.mask - dist r := by
  have hs := h.size_pos
  have hm := h.mask_lt
  have hd := h.dist_le
  have hdvd2 : r.size ∣ 2 * U32 := Dvd.dvd.mul_left h.size_dvd 2
  have hdU : dist r < U32 := usub_lt _ _
  have hde : usub r.prodTail r.consTail = dist r := rfl
  rw [ring_avail, h.and_mask, usub_one_raw, Nat.mod_mod_of_dvd _ h.size_dvd, hde]
  have h1 : (2 * U32 - dist r - 1) % r.size = r.size - 1 - dist r % r.size :=
    dvd_sub_one_mod hs hdvd2 (by omega)
  rw [h1, Nat.mod_eq_of_lt (by omega), h.mask_eq]

theorem Valid.tail_mod {r : ring} (h : Valid r) :
    r.prodTail % r.size = (r.consTail + dist r) % r.size := by
  have := usub_add_cancel r.prodTail r.consTail
  exact (mod_of_mod_U32 h.size_dvd this).symm

/-- The avail value computed by the producer-side reservation code. -/
def availP (r : ring) : Nat := usub (uadd r.mask r.consTail) r.prodHead

/-- The avail value computed by the consumer-side reservation code. -/
def availC (r : ring) : Nat := usub r.prodTail r.consHead

theorem Valid.availP_eq {r : ring} (h : Valid r) : availP r = r.mask - dist r := by
  rw [availP, h.ph_eq]
  exact usub_avail _ _ _ h.mask_lt_U32 h.dist_le

theorem Valid.availC_eq {r : ring} (h : Valid r) : availC r = dist r := by
  rw [availC, h.ch_eq, dist]

/-- The state produced by the body of a push that transfers m handles. -/
def pushResult (r : ring) (objs : List Nat) (m : Nat) : ring :=
  { r with prodHead := uadd r.prodHead m,
           prodTail := uadd r.prodHead m,
           ring := push_ptrs r.ring r.size (r.prodHead &&& r.mask) objs m }

/-- The state produced by the body of a pop that transfers m handles. -/
def popResult (r : ring) (m : Nat) : ring :=
  { r with consHead := uadd r.consHead m, consTail := uadd r.consHead m }

/-- The handles read by the body of a pop that transfers m handles. -/
def popOut (r : ring) (m : Nat) : List Nat :=
  pop_ptrs r.ring r.size (r.consHead &&& r.mask) m

theorem ring_sp_push_go {r : ring} {n : Nat} (objs : List Nat) (behavior : Nat)
    (h : ¬ n > availP r) :
    ring_sp_push r objs n behavior = (pushResult r objs n, n) := by
  simp only [availP] at h
  rw [ring_sp_push, if_neg (fun hc => h hc.1), if_neg (fun hc => h hc.1)]
  simp only [if_neg h]
  rfl

theorem ring_sp_push_fail {r : ring} {n behavior : Nat} (objs : List Nat)
    (hgt : n > availP r) (h : behavior = RING_B_FIXED ∨ availP r = 0) :
    ring_sp_push r objs n behavior = (r, 0) := by
  rcases h with h | h
  · rw [ring_sp_push, if_pos ⟨hgt, h⟩]
  · rw [ring_sp_push]
    by_cases hb : behavior = RING_B_FIXED
    · rw [if_pos ⟨hgt, hb⟩]
    · rw [if_neg (fun hc => hb hc.2), if_pos ⟨hgt, h⟩]

theorem ring_sp_push_clamp {r : ring} {n behavior : Nat} (objs : List Nat)
    (hgt : n > availP r) (hb : behavior ≠ RING_B_FIXED) (h0 : availP r ≠ 0) :
    ring_sp_push r objs n behavior = (pushResult r objs (availP r), availP r) := by
  simp only [availP] at hgt h0 ⊢
  rw [ring_sp_push, if_neg (fun hc => hb hc.2), if_neg (fun hc => h0 hc.2)]
  simp only [if_pos hgt]
  rfl

theorem ring_sc_pop_go {r : ring} {n : Nat} (behavior : Nat)
    (h : ¬ n > availC r) :
    ring_sc_pop r n behavior = (popResult r n, popOut r n, n) := by
  simp only [availC] at h
  rw [ring_sc_pop, if_neg (fun hc => h hc.1), if_neg (fun hc => h hc.1)]
  simp only [if_neg h]
  rfl

theorem ring_sc_pop_fail {r : ring} {n behavior : Nat}
    (hgt : n > availC r) (h : behavior = RING_B_FIXED ∨ availC r = 0) :
    ring_sc_pop r n behavior = (r, [], 0) := by
  rcases h with h | h
  · rw [ring_sc_pop, if_pos ⟨hgt, h⟩]
  · rw [ring_sc_pop]
    by_cases hb : behavior = RING_B_FIXED
    · rw [if_pos ⟨hgt, hb⟩]
    · rw [if_neg (fun hc => hb hc.2), if_pos ⟨hgt, h⟩]

theorem ring_sc_pop_clamp {r : ring} {n behavior : Nat}
    (hgt : n > availC r) (hb : behavior ≠ RING_B_FIXED) (h0 : availC r ≠ 0) :
    ring_sc_pop r n behavior = (popResult r (availC r), popOut r (availC r), availC r) := by
  simp only [availC] at hgt h0 ⊢
  rw [ring_sc_pop, if_neg (fun hc => hb hc.2), if_neg (fun hc => h0 hc.2)]
  simp only [if_pos hgt]
  rfl

theorem offset_hi {s : Nat} (hs : 0 < s) (ct d i m : Nat) (hd : d ≤ i) (hi : i < d + m)
    (hdm : d + m ≤ s) :
    ((ct + i) % s + (s - (ct + d) % s)) % s = i - d := by
  rw [Nat.mod_add_mod, add_mod_sub_mod hs _ _ (by omega)]
  have h1 : ct + i - (ct + d) = i - d := by omega
  rw [h1, Nat.mod_eq_of_lt (by omega)]

theorem offset_lo {s : Nat} (hs : 0 < s) (ct d i : Nat) (hi : i < d) (hd : d < s) :
    ((ct + i) % s + (s - (ct + d) % s)) % s = s + i - d := by
  rw [Nat.mod_add_mod]
  have key : (ct + i + s + (s - (ct + d) % s)) % s = (s + i - d) % s := by
    rw [add_mod_sub_mod hs _ _ (by omega)]
    congr 1
    omega
  rw [← Nat.add_mod_right (ct + i + (s - (ct + d) % s)) s,
    Nat.add_right_comm (ct + i) (s - (ct + d) % s) s, key,
    Nat.mod_eq_of_lt (by omega)]

theorem ringAbs_length (r : ring) : (ringAbs r).length = ring_count r :=
  pop_ptrs_length _ _ _ _

theorem ringAbs_eq {r : ring} (h : Valid r) :
    ringAbs r = (List.range (dist r)).map
      (fun i => r.ring.getD ((r.consTail + i) % r.size) 0) := by
  rw [ringAbs, h.count_eq, h.and_mask,
    pop_ptrs_eq _ _ _ _ (Nat.mod_lt _ h.size_pos)
      (le_of_lt (Nat.lt_of_le_of_lt h.dist_le h.mask_lt))]
  apply List.ext_getElem (by simp)
  intro i h1 h2
  simp only [List.getElem_map, List.getElem_range]
  congr 1
  rw [Nat.mod_add_mod]

theorem push_abs_core {rg objs : List Nat} {s ct pt d m : Nat}
    (hs : 0 < s) (hlen : rg.length = s) (hpt : pt % s = (ct + d) % s)
    (hdm : d + m < s) (hmo : m ≤ objs.length) :
    (List.range (d + m)).map
        (fun i => (push_ptrs rg s (pt % s) objs m).getD ((ct + i) % s) 0)
      = (List.range d).map (fun i => rg.getD ((ct + i) % s) 0) ++ objs.take m := by
  apply List.ext_getElem
  · simp only [List.length_map, List.length_range, List.length_append, List.length_take]
    omega
  intro i h1 h2
  have hi : i < d + m := by simpa using h1
  simp only [List.getElem_map, List.getElem_range]
  rw [push_ptrs_getD rg objs s (pt % s) m ((ct + i) % s)
    (Nat.mod_lt _ hs) (by omega) hlen hmo (Nat.mod_lt _ hs), hpt]
  by_cases hc : i < d
  · rw [offset_lo hs ct d i hc (by omega), if_neg (by omega)]
    rw [List.getElem_append_left (by simpa using hc)]
    simp only [List.getElem_map, List.getElem_range]
  · push_neg at hc
    rw [offset_hi hs ct d i m hc hi (by omega), if_pos (by omega)]
    rw [List.getElem_append_right (by simpa using hc)]
    have h4 : i - d < objs.length := by omega
    rw [List.getD_eq_getElem _ _ h4]
    simp only [List.length_map, List.length_range]
    exact (List.getElem_take _).symm

theorem pushResult_spec {r : ring} (objs : List Nat) (m : Nat) (hV : Valid r)
    (hm : m ≤ r.mask - dist r) (hmo : m ≤ objs.length) :
    Valid (pushResult r objs m) ∧ dist (pushResult r objs m) = dist r + m ∧
    ringAbs (pushResult r objs m) = ringAbs r ++ objs.take m := by
  have hdle := hV.dist_le
  have hmlt := hV.mask_lt
  have hmU := hV.mask_lt_U32
  have hs := hV.size_pos
  have hdm : dist r + m ≤ r.mask := by omega
  have hdist : dist (pushResult r objs m) = dist r + m := by
    show usub (uadd r.prodHead m) r.consTail = dist r + m
    rw [hV.ph_eq, uadd_usub]
    exact Nat.mod_eq_of_lt (by simp only [dist] at hdm ⊢; omega)
  have hV' : Valid (pushResult r objs m) := by
    refine ⟨hV.size_pow, hV.mask_eq, ?_, uadd_lt _ _, uadd_lt _ _, hV.ch_lt, hV.ct_lt,
      rfl, hV.ch_eq, ?_⟩
    · show (push_ptrs r.ring r.size (r.prodHead &&& r.mask) objs m).length = r.size
      rw [push_ptrs_length, hV.len_eq]
    · rw [hdist]
      exact hdm
  refine ⟨hV', hdist, ?_⟩
  rw [ringAbs_eq hV', ringAbs_eq hV, hdist]
  simp only [pushResult]
  rw [hV.and_mask, hV.ph_eq]
  exact push_abs_core hs hV.len_eq hV.tail_mod
    (by rw [hV.mask_eq] at hdm; omega) hmo

theorem popOut_take {r : ring} (m : Nat) (hV : Valid r) (hm : m ≤ dist r) :
    popOut r m = (ringAbs r).take m := by
  have hs := hV.size_pos
  have hds : dist r < r.size := Nat.lt_of_le_of_lt hV.dist_le hV.mask_lt
  rw [popOut, hV.ch_eq, hV.and_mask,
    pop_ptrs_eq _ _ _ _ (Nat.mod_lt _ hs) (by omega),
    ringAbs_eq hV, ← List.map_take, List.take_range, Nat.min_eq_left hm]
  apply List.map_congr_left
  intro i _
  congr 1
  rw [Nat.mod_add_mod]

theorem popResult_spec {r : ring} (m : Nat) (hV : Valid r) (hm : m ≤ dist r) :
    Valid (popResult r m) ∧ dist (popResult r m) = dist r - m ∧
    ringAbs (popResult r m) = (ringAbs r).drop m := by
  have hs := hV.size_pos
  have hdvd := hV.size_dvd
  have hds : dist r < r.size := Nat.lt_of_le_of_lt hV.dist_le hV.mask_lt
  have hdist : dist (popResult r m) = dist r - m := by
    show usub r.prodTail (uadd r.consHead m) = dist r - m
    rw [hV.ch_eq]
    exact usub_uadd_right _ _ _ hm
  have hV' : Valid (popResult r m) := by
    refine ⟨hV.size_pow, hV.mask_eq, hV.len_eq, hV.ph_lt, hV.pt_lt, uadd_lt _ _,
      uadd_lt _ _, hV.ph_eq, rfl, ?_⟩
    rw [hdist]
    exact le_trans (Nat.sub_le _ _) hV.dist_le
  refine ⟨hV', hdist, ?_⟩
  rw [ringAbs_eq hV', ringAbs_eq hV, hdist]
  simp only [popResult]
  rw [hV.ch_eq]
  apply List.ext_getElem
  · simp only [List.length_map, List.length_range, List.length_drop]
  intro i h1 h2
  have hi : i < dist r - m := by simpa using h1
  simp only [List.getElem_map, List.getElem_range, List.getElem_drop,
    List.length_map, List.length_range]
  congr 1
  have h3 : (uadd r.consTail m + i) % r.size = (r.consTail + m + i) % r.size := by
    rw [uadd, Nat.add_mod ((r.consTail + m) % U32) i,
      Nat.mod_mod_of_dvd _ hdvd, ← Nat.add_mod]
  rw [h3]
  congr 1
  omega

theorem push_ptrs_zero {r : ring} (hV : Valid r) (objs : List Nat) :
    push_ptrs r.ring r.size (r.prodHead &&& r.mask) objs 0 = r.ring := by
  have hidx : (r.prodHead &&& r.mask) + 0 < r.size := by
    rw [hV.and_mask, Nat.add_zero]
    exact Nat.mod_lt _ hV.size_pos
  rw [push_ptrs, if_pos hidx, List.take_zero]
  rfl

theorem pushResult_zero {r : ring} (hV : Valid r) (objs : List Nat) :
    pushResult r objs 0 = r := by
  have h1 : uadd r.prodHead 0 = r.prodHead := by
    rw [uadd, Nat.add_zero]
    exact Nat.mod_eq_of_lt hV.ph_lt
  have h2 : uadd r.prodHead 0 = r.prodTail := by rw [h1, hV.ph_eq]
  ext : 1
  · rfl
  · rfl
  · rfl
  · rfl
  · exact h1
  · exact h2
  · rfl
  · rfl
  · exact push_ptrs_zero hV objs

theorem popOut_zero {r : ring} (hV : Valid r) : popOut r 0 = [] := by
  have hidx : (r.consHead &&& r.mask) + 0 < r.size := by
    rw [hV.and_mask, Nat.add_zero]
    exact Nat.mod_lt _ hV.size_pos
  rw [popOut, pop_ptrs, if_pos hidx]
  rfl

theorem popResult_zero {r : ring} (hV : Valid r) : popResult r 0 = r := by
  have h1 : uadd r.consHead 0 = r.consHead := by
    rw [uadd, Nat.add_zero]
    exact Nat.mod_eq_of_lt hV.ch_lt
  have h2 : uadd r.consHead 0 = r.consTail := by rw [h1, hV.ch_eq]
  ext : 1
  · rfl
  · rfl
  · rfl
  · rfl
  · rfl
  · rfl
  · exact h1
  · exact h2
  · rfl

theorem ring_mp_push_eq {r : ring} (objs : List Nat) (n behavior : Nat)
    (h : r.prodTail = r.prodHead) :
    ring_mp_push r objs n behavior = some (ring_sp_push r objs n behavior) := by
  simp only [ring_mp_push, ring_sp_push]
  split_ifs with h1 h2 h3
  · rfl
  · rfl
  · rfl
  · rfl

theorem ring_mc_pop_eq {r : ring} (n behavior : Nat)
    (h : r.consTail = r.consHead) :
    ring_mc_pop r n behavior = some (ring_sc_pop r n behavior) := by
  simp only [ring_mc_pop, ring_sc_pop]
  split_ifs with h1 h2 h3
  · rfl
  · rfl
  · rfl
  · rfl

theorem sp_push_abs {r : ring} (objs : List Nat) (n behavior : Nat) (hV : Valid r)
    (hlen : n ≤ objs.length) :
    Valid (ring_sp_push r objs n behavior).1 ∧
    ringAbs (ring_sp_push r objs n behavior).1
      = ringAbs r ++ objs.take (ring_sp_push r objs n behavior).2 ∧
    (ring_sp_push r objs n behavior).2 ≤ n := by
  by_cases hgt : n > availP r
  · by_cases hb : behavior = RING_B_FIXED
    · rw [ring_sp_push_fail objs hgt (Or.inl hb)]
      simp [hV]
    · by_cases h0 : availP r = 0
      · rw [ring_sp_push_fail objs hgt (Or.inr h0)]
        simp [hV]
      · rw [ring_sp_push_clamp objs hgt hb h0]
        have hm : availP r ≤ r.mask - dist r := le_of_eq (hV.availP_eq)
        have hmo : availP r ≤ objs.length := le_trans (le_of_lt hgt) hlen
        obtain ⟨hV', _, habs⟩ := pushResult_spec objs (availP r) hV hm hmo
        exact ⟨hV', habs, le_of_lt hgt⟩
  · rw [ring_sp_push_go objs behavior hgt]
    push_neg at hgt
    have hm : n ≤ r.mask - dist r := hV.availP_eq ▸ hgt
    obtain ⟨hV', _, habs⟩ := pushResult_spec objs n hV hm hlen
    exact ⟨hV', habs, le_refl n⟩

theorem sc_pop_abs {r : ring} (n behavior : Nat) (hV : Valid r) :
    Valid (ring_sc_pop r n behavior).1 ∧
    (ring_sc_pop r n behavior).2.1
      = (ringAbs r).take (ring_sc_pop r n behavior).2.2 ∧
    ringAbs (ring_sc_pop r n behavior).1
      = (ringAbs r).drop (ring_sc_pop r n behavior).2.2 ∧
    (ring_sc_pop r n behavior).2.2 ≤ n := by
  by_cases hgt : n > availC r
  · by_cases hb : behavior = RING_B_FIXED
    · rw [ring_sc_pop_fail hgt (Or.inl hb)]
      simp [hV]
    · by_cases h0 : availC r = 0
      · rw [ring_sc_pop_fail hgt (Or.inr h0)]
        simp [hV]
      · rw [ring_sc_pop_clamp hgt hb h0]
        have hm : availC r ≤ dist r := le_of_eq (hV.availC_eq)
        obtain ⟨hV', _, habs⟩ := popResult_spec (availC r) hV hm
        exact ⟨hV', popOut_take _ hV hm, habs, le_of_lt hgt⟩
  · rw [ring_sc_pop_go behavior hgt]
    push_neg at hgt
    have hm : n ≤ dist r := hV.availC_eq ▸ hgt
    obtain ⟨hV', _, habs⟩ := popResult_spec n hV hm
    exact ⟨hV', popOut_take _ hV hm, habs, le_refl n⟩

/-- States reachable by sequential push/pop operations from an initialized
ring, paired with the abstract FIFO queue contents tracked alongside: a push
appends the accepted prefix of its input, a pop removes the handles it
returned. -/
inductive ReachAbs : ring → List Nat → Prop where
  | init (k flags : Nat) (mem : List Nat) (hk : k ≤ 28) (hmem : mem.length = 2 ^ k) :
      ReachAbs (ring_init (2 ^ k) flags mem) []
  | push (r : ring) (q objs : List Nat) (n behavior : Nat) (h : ReachAbs r q)
      (hlen : n ≤ objs.length) :
      ReachAbs (ring_sp_push r objs n behavior).1
        (q ++ objs.take (ring_sp_push r objs n behavior).2)
  | pop (r : ring) (q : List Nat) (n behavior : Nat) (h : ReachAbs r q) :
      ReachAbs (ring_sc_pop r n behavior).1 (q.drop (ring_sc_pop r n behavior).2.2)
  | mpush (r : ring) (q objs : List Nat) (n behavior : Nat) (p : ring × Nat)
      (h : ReachAbs r q) (hlen : n ≤ objs.length)
      (hp : ring_mp_push r objs n behavior = some p) :
      ReachAbs p.1 (q ++ objs.take p.2)
  | mpop (r : ring) (q : List Nat) (n behavior : Nat) (p : ring × List Nat × Nat)
      (h : ReachAbs r q) (hp : ring_mc_pop r n behavior = some p) :
      ReachAbs p.1 (q.drop p.2.2)

/-- States reachable by sequential push/pop from an initialized ring. -/
def Reachable (r : ring) : Prop := ∃ q, ReachAbs r q

theorem valid_init (k flags : Nat) (mem : List Nat) (hk : k ≤ 28)
    (hmem : mem.length = 2 ^ k) : Valid (ring_init (2 ^ k) flags mem) := by
  have h1 : 1 ≤ 2 ^ k := Nat.one_le_two_pow
  have h2 : (2 : Nat) ^ k ≤ 2 ^ 28 := Nat.pow_le_pow_right (by omega) hk
  have h3 : (2 : Nat) ^ 28 < U32 := by decide
  refine ⟨⟨k, hk, rfl⟩, ?_, hmem, by show (0:Nat) < U32; decide,
    by show (0:Nat) < U32; decide, by show (0:Nat) < U32; decide,
    by show (0:Nat) < U32; decide, rfl, rfl, ?_⟩
  · show usub (2 ^ k) 1 = 2 ^ k - 1
    simp only [usub, U32] at *
    omega
  · show usub 0 0 ≤ usub (2 ^ k) 1
    simp only [usub, U32]
    omega

theorem ringAbs_init (k flags : Nat) (mem : List Nat) (hk : k ≤ 28)
    (hmem : mem.length = 2 ^ k) : ringAbs (ring_init (2 ^ k) flags mem) = [] := by
  have hV := valid_init k flags mem hk hmem
  rw [ringAbs_eq hV]
  have h0 : dist (ring_init (2 ^ k) flags mem) = 0 := by
    show usub 0 0 = 0
    simp [usub, U32]
  rw [h0]
  rfl

theorem reachAbs_spec {r : ring} {q : List Nat} (h : ReachAbs r q) :
    Valid r ∧ ringAbs r = q := by
  induction h with
  | init k flags mem hk hmem =>
    exact ⟨valid_init k flags mem hk hmem, ringAbs_init k flags mem hk hmem⟩
  | push r q objs n behavior h hlen ih =>
    obtain ⟨hV, habs⟩ := ih
    obtain ⟨hV', habs', _⟩ := sp_push_abs objs n behavior hV hlen
    exact ⟨hV', by rw [habs', habs]⟩
  | pop r q n behavior h ih =>
    obtain ⟨hV, habs⟩ := ih
    obtain ⟨hV', _, habs', _⟩ := sc_pop_abs n behavior hV
    exact ⟨hV', by rw [habs', habs]⟩
  | mpush r q objs n behavior p h hlen hp ih =>
    obtain ⟨hV, habs⟩ := ih
    rw [ring_mp_push_eq objs n behavior hV.ph_eq.symm] at hp
    obtain ⟨hV', habs', _⟩ := sp_push_abs objs n behavior hV hlen
    cases hp
    exact ⟨hV', by rw [habs', habs]⟩
  | mpop r q n behavior p h hp ih =>
    obtain ⟨hV, habs⟩ := ih
    rw [ring_mc_pop_eq n behavior hV.ch_eq.symm] at hp
    obtain ⟨hV', _, habs', _⟩ := sc_pop_abs n behavior hV
    cases hp
    exact ⟨hV', by rw [habs', habs]⟩

theorem reachable_valid {r : ring} (h : Reachable r) : Valid r := by
  obtain ⟨q, hq⟩ := h
  exact (reachAbs_spec hq).1

/-- One sequential operation on a single-producer/single-consumer ring. -/
inductive Op where
  | push (objs : List Nat) (n : Nat) (behavior : Nat)
  | pop (n : Nat) (behavior : Nat)
deriving DecidableEq

/-- Well-formedness of an operation: a push of n handles carries a caller
buffer of at least n handles. -/
def opWF : Op → Bool
  | Op.push objs n _ => n ≤ objs.length
  | Op.pop _ _ => true

/-- Run a sequence of operations, collecting the concatenation of the
accepted handles of all pushes and the concatenation of all popped handles. -/
def runC : ring → List Op → ring × List Nat × List Nat
  | r, [] => (r, [], [])
  | r, Op.push objs n b :: ops =>
      let p := ring_sp_push r objs n b
      let rest := runC p.1 ops
      (rest.1, objs.take p.2 ++ rest.2.1, rest.2.2)
  | r, Op.pop n b :: ops =>
      let p := ring_sc_pop r n b
      let rest := runC p.1 ops
      (rest.1, rest.2.1, p.2.1 ++ rest.2.2)

theorem runC_spec (ops : List Op) (r : ring) (hV : Valid r)
    (hwf : ∀ op ∈ ops, opWF op = true) :
    Valid (runC r ops).1 ∧
    (runC r ops).2.2 ++ ringAbs (runC r ops).1 = ringAbs r ++ (runC r ops).2.1 := by
  induction ops generalizing r with
  | nil => exact ⟨hV, by simp [runC]⟩
  | cons op ops ih =>
    cases op with
    | push objs n b =>
      have hlen : n ≤ objs.length := by
        have := hwf _ (List.mem_cons_self _ _)
        simpa [opWF] using this
      obtain ⟨hV', habs, _⟩ := sp_push_abs objs n b hV hlen
      obtain ⟨hVf, hrec⟩ := ih (ring_sp_push r objs n b).1 hV'
        (fun op hop => hwf op (List.mem_cons_of_mem _ hop))
      refine ⟨hVf, ?_⟩
      simp only [runC]
      rw [hrec, habs, List.append_assoc]
    | pop n b =>
      obtain ⟨hV', hout, habs, _⟩ := sc_pop_abs n b hV
      obtain ⟨hVf, hrec⟩ := ih (ring_sc_pop r n b).1 hV'
        (fun op hop => hwf op (List.mem_cons_of_mem _ hop))
      refine ⟨hVf, ?_⟩
      simp only [runC]
      rw [List.append_assoc, hrec, habs, hout, ← List.append_assoc,
        List.take_append_drop]

/-- C1: the specification and the header documentation of ring_memsize say it
returns 0 when count is not a power of two, and 0 is not a power of two; but
POWEROF2 0 computes true (the unsigned subtraction in ((x-1) & x) wraps), so
the code instead accepts count = 0 and returns sizeof(struct ring), a nonzero
value. This theorem evaluates the code at the failing input count = 0. -/
theorem C1_memsize_zero_bug :
    ring_memsize 0 = sizeof_struct_ring ∧ sizeof_struct_ring ≠ 0 ∧
    POWEROF2 0 = true ∧ ∀ k : Nat, 0 ≠ 2 ^ k := by
  refine ⟨by decide, by decide, by decide, fun k => ?_⟩
  have h := Nat.one_le_two_pow (n := k)
  omega

/-- C2: under RING_B_FIXED behavior, a push or pop invoked on a sequentially
reachable (hence quiescent) valid state either returns exactly the requested
n and transfers exactly those n handles, or returns 0 and leaves the entire
ring state unchanged; the multi-producer and multi-consumer paths executed
sequentially return exactly the single-producer and single-consumer results. -/
theorem C2_fixed_all_or_nothing (r : ring) (hV : Valid r) (objs : List Nat)
    (n : Nat) (hlen : n ≤ objs.length) :
    ((ring_sp_push r objs n RING_B_FIXED).2 = n ∧
        ringAbs (ring_sp_push r objs n RING_B_FIXED).1 = ringAbs r ++ objs.take n ∨
      (ring_sp_push r objs n RING_B_FIXED).2 = 0 ∧
        (ring_sp_push r objs n RING_B_FIXED).1 = r) ∧
    ((ring_sc_pop r n RING_B_FIXED).2.2 = n ∧
        (ring_sc_pop r n RING_B_FIXED).2.1 = (ringAbs r).take n ∧
        (ring_sc_pop r n RING_B_FIXED).2.1.length = n ∧
        ringAbs (ring_sc_pop r n RING_B_FIXED).1 = (ringAbs r).drop n ∨
      (ring_sc_pop r n RING_B_FIXED).2.2 = 0 ∧
        (ring_sc_pop r n RING_B_FIXED).1 = r ∧
        (ring_sc_pop r n RING_B_FIXED).2.1 = []) ∧
    ring_mp_push r objs n RING_B_FIXED = some (ring_sp_push r objs n RING_B_FIXED) ∧
    ring_mc_pop r n RING_B_FIXED = some (ring_sc_pop r n RING_B_FIXED) := by
  refine ⟨?_, ?_, ring_mp_push_eq objs n RING_B_FIXED hV.ph_eq.symm,
    ring_mc_pop_eq n RING_B_FIXED hV.ch_eq.symm⟩
  · by_cases hgt : n > availP r
    · rw [ring_sp_push_fail objs hgt (Or.inl rfl)]
      exact Or.inr ⟨rfl, rfl⟩
    · rw [ring_sp_push_go objs RING_B_FIXED hgt]
      push_neg at hgt
      obtain ⟨_, _, habs⟩ := pushResult_spec objs n hV (hV.availP_eq ▸ hgt) hlen
      exact Or.inl ⟨rfl, habs⟩
  · by_cases hgt : n > availC r
    · rw [ring_sc_pop_fail hgt (Or.inl rfl)]
      exact Or.inr ⟨rfl, rfl, rfl⟩
    · rw [ring_sc_pop_go RING_B_FIXED hgt]
      push_neg at hgt
      have hm : n ≤ dist r := hV.availC_eq ▸ hgt
      obtain ⟨_, _, habs⟩ := popResult_spec n hV hm
      refine Or.inl ⟨rfl, popOut_take n hV hm, ?_, habs⟩
      rw [popOut_take n hV hm, List.length_take, ringAbs_length, hV.count_eq]
      omega

/-- C3: under RING_B_VARIABLE behavior on a sequentially reachable valid
state, a push returns and transfers min n (ring_avail r) handles (the first
such handles of the caller buffer) when ring_avail r > 0, and returns 0
changing nothing when ring_avail r = 0; symmetrically for pop with
ring_count. -/
theorem C3_variable_best_effort (r : ring) (hV : Valid r) (objs : List Nat)
    (n : Nat) (hlen : n ≤ objs.length) :
    (ring_avail r = 0 → ring_sp_push r objs n RING_B_VARIABLE = (r, 0)) ∧
    (0 < ring_avail r →
      (ring_sp_push r objs n RING_B_VARIABLE).2 = min n (ring_avail r) ∧
      ringAbs (ring_sp_push r objs n RING_B_VARIABLE).1
        = ringAbs r ++ objs.take (min n (ring_avail r))) ∧
    (ring_count r = 0 → ring_sc_pop r n RING_B_VARIABLE = (r, [], 0)) ∧
    (0 < ring_count r →
      (ring_sc_pop r n RING_B_VARIABLE).2.2 = min n (ring_count r) ∧
      (ring_sc_pop r n RING_B_VARIABLE).2.1
        = (ringAbs r).take (min n (ring_count r)) ∧
      ringAbs (ring_sc_pop r n RING_B_VARIABLE).1
        = (ringAbs r).drop (min n (ring_count r))) := by
  have hb : RING_B_VARIABLE ≠ RING_B_FIXED := by decide
  have hap : availP r = ring_avail r := by rw [hV.availP_eq, hV.avail_eq]
  have hac : availC r = ring_count r := by rw [hV.availC_eq, hV.count_eq]
  refine ⟨?_, ?_, ?_, ?_⟩
  · intro h0
    rcases Nat.eq_zero_or_pos n with hn | hn
    · subst hn
      rw [ring_sp_push_go objs RING_B_VARIABLE (by omega), pushResult_zero hV]
    · exact ring_sp_push_fail objs (by omega) (Or.inr (by omega))
  · intro hpos
    by_cases hgt : n > availP r
    · rw [ring_sp_push_clamp objs hgt hb (by omega)]
      obtain ⟨_, _, habs⟩ := pushResult_spec objs (availP r) hV
        (le_of_eq hV.availP_eq) (le_trans (le_of_lt hgt) hlen)
      rw [hap] at habs ⊢
      exact ⟨(Nat.min_eq_right (by omega)).symm,
        by rw [Nat.min_eq_right (by omega)]; exact habs⟩
    · rw [ring_sp_push_go objs RING_B_VARIABLE hgt]
      push_neg at hgt
      obtain ⟨_, _, habs⟩ := pushResult_spec objs n hV (hV.availP_eq ▸ hgt) hlen
      exact ⟨(Nat.min_eq_left (by omega)).symm,
        by rw [Nat.min_eq_left (by omega)]; exact habs⟩
  · intro h0
    rcases Nat.eq_zero_or_pos n with hn | hn
    · subst hn
      rw [ring_sc_pop_go RING_B_VARIABLE (by omega), popResult_zero hV, popOut_zero hV]
    · exact ring_sc_pop_fail (by omega) (Or.inr (by omega))
  · intro hpos
    have hc0 : availC r = ring_count r := hac
    by_cases hgt : n > availC r
    · have hmin : min n (ring_count r) = ring_count r := Nat.min_eq_right (by omega)
      rw [ring_sc_pop_clamp hgt hb (by omega)]
      have hm : availC r ≤ dist r := le_of_eq hV.availC_eq
      obtain ⟨_, _, habs⟩ := popResult_spec (availC r) hV hm
      have hout := popOut_take (availC r) hV hm
      rw [hmin, ← hc0]
      exact ⟨rfl, hout, habs⟩
    · have hmin : min n (ring_count r) = n := Nat.min_eq_left (by omega)
      rw [ring_sc_pop_go RING_B_VARIABLE hgt]
      push_neg at hgt
      have hm : n ≤ dist r := hV.availC_eq ▸ hgt
      obtain ⟨_, _, habs⟩ := popResult_spec n hV hm
      have hout := popOut_take n hV hm
      rw [hmin]
      exact ⟨rfl, hout, habs⟩

/-- C4: running any sequence of sequential push/pop operations from an
initialized ring, the concatenation of all popped handles extended by the
handles still pending in the ring equals the concatenation of all accepted
push handles; in particular the popped handles are a prefix of the pushed
handles in global push order, so every successful push emerges after enough
pops, in FIFO order. -/
theorem C4_fifo (k flags : Nat) (mem : List Nat) (ops : List Op) (hk : k ≤ 28)
    (hmem : mem.length = 2 ^ k) (hwf : ∀ op ∈ ops, opWF op = true) :
    (runC (ring_init (2 ^ k) flags mem) ops).2.2
        ++ ringAbs (runC (ring_init (2 ^ k) flags mem) ops).1
      = (runC (ring_init (2 ^ k) flags mem) ops).2.1 ∧
    List.IsPrefix (runC (ring_init (2 ^ k) flags mem) ops).2.2
      (runC (ring_init (2 ^ k) flags mem) ops).2.1 := by
  have hV := valid_init k flags mem hk hmem
  obtain ⟨hVf, hrec⟩ := runC_spec ops _ hV hwf
  rw [ringAbs_init k flags mem hk hmem, List.nil_append] at hrec
  exact ⟨hrec, ⟨_, hrec⟩⟩

/-- C5: for every pair of 32-bit producer and consumer tail values and every
power-of-two size within the size mask, with mask = size - 1, the occupancy
and free-space accessors satisfy ring_count + ring_avail = size - 1 and
ring_count ≤ size - 1. -/
theorem C5_count_avail_sum (r : ring) (k : Nat) (hk : k ≤ 28) (hsz : r.size = 2 ^ k)
    (hm : r.mask = r.size - 1) (hpt : r.prodTail < U32) (hct : r.consTail < U32) :
    ring_count r + ring_avail r = r.size - 1 ∧ ring_count r ≤ r.size - 1 := by
  have hU : U32 = 2 ^ 32 := by decide
  have hdvd : (2 : Nat) ^ k ∣ U32 := by
    rw [hU]; exact Nat.pow_dvd_pow 2 (by omega)
  have hdvd2 : (2 : Nat) ^ k ∣ 2 * U32 := Dvd.dvd.mul_left hdvd 2
  have hs : 0 < (2 : Nat) ^ k := Nat.pos_pow_of_pos _ (by omega)
  have hdU : usub r.prodTail r.consTail < U32 := usub_lt _ _
  have hcount : ring_count r = usub r.prodTail r.consTail % 2 ^ k := by
    rw [ring_count, hm, hsz, and_mask_two_pow]
  have havail : ring_avail r = 2 ^ k - 1 - usub r.prodTail r.consTail % 2 ^ k := by
    rw [ring_avail, hm, hsz, and_mask_two_pow, usub_one_raw,
      Nat.mod_mod_of_dvd _ hdvd, dvd_sub_one_mod hs hdvd2 (by omega)]
  have hmod : usub r.prodTail r.consTail % 2 ^ k < 2 ^ k := Nat.mod_lt _ hs
  have hle : usub r.prodTail r.consTail % 2 ^ k ≤ 2 ^ k - 1 := Nat.le_pred_of_lt hmod
  rw [hcount, havail, hsz]
  exact ⟨Nat.add_sub_cancel' hle, hle⟩

/-- C6: on every sequentially reachable state, ring_empty is true exactly when
ring_count is 0, ring_full is true exactly when ring_avail is 0, the two are
mutually exclusive unless size = 1, and for size = 1 both always hold and the
ring holds 0 items. -/
theorem C6_empty_full_iff (r : ring) (hR : Reachable r) :
    (ring_empty r = true ↔ ring_count r = 0) ∧
    (ring_full r = true ↔ ring_avail r = 0) ∧
    (r.size ≠ 1 → ¬(ring_empty r = true ∧ ring_full r = true)) ∧
    (r.size = 1 → ring_empty r = true ∧ ring_full r = true ∧ ring_count r = 0) := by
  have hV := reachable_valid hR
  have hpos := hV.size_pos
  have hd := hV.dist_le
  have hdm : dist r ≤ r.size - 1 := by rw [← hV.mask_eq]; exact hd
  have hemp : ring_empty r = true ↔ ring_count r = 0 := by
    have h0 : ring_count r = usub r.prodTail r.consTail := hV.count_eq
    rw [ring_empty, beq_iff_eq, h0, usub_zero_iff _ _ hV.pt_lt hV.ct_lt]
    exact eq_comm
  have hful : ring_full r = true ↔ ring_avail r = 0 := by
    rw [ring_full, ring_avail]
    exact beq_iff_eq
  have hsum : ring_count r + ring_avail r = r.size - 1 := by
    rw [hV.count_eq, hV.avail_eq, hV.mask_eq]
    omega
  refine ⟨hemp, hful, ?_, ?_⟩
  · rintro hne ⟨he, hf⟩
    rw [hemp] at he
    rw [hful] at hf
    omega
  · intro h1
    have hcount : ring_count r = 0 := by
      rw [hV.count_eq]
      omega
    refine ⟨hemp.mpr hcount, hful.mpr ?_, hcount⟩
    omega

/-- C7: the slot transfer macros store (push) and load (pop) the i-th handle
of a reservation starting at head at slot index (head + i) & mask, for every
i below the transferred count n ≤ size - 1, including the wrapped split and
the boundary case where (head & mask) + n lands exactly on size. -/
theorem C7_slot_indexing (size k head n : Nat) (rg objs : List Nat)
    (hsz : size = 2 ^ k) (hlen : rg.length = size) (hn : n ≤ size - 1)
    (hobjs : n ≤ objs.length) :
    (∀ i, i < n →
      (push_ptrs rg size (head &&& (size - 1)) objs n).getD
          ((head + i) &&& (size - 1)) 0 = objs.getD i 0) ∧
    pop_ptrs rg size (head &&& (size - 1)) n
      = (List.range n).map fun i => rg.getD ((head + i) &&& (size - 1)) 0 := by
  subst hsz
  have hs : 0 < (2 : Nat) ^ k := Nat.pos_pow_of_pos _ (by omega)
  simp only [and_mask_two_pow]
  constructor
  · intro i hi
    rw [push_ptrs_getD rg objs _ _ n _ (Nat.mod_lt _ hs) (by omega) hlen hobjs
      (Nat.mod_lt _ hs)]
    have hoff : ((head + i) % 2 ^ k + (2 ^ k - head % 2 ^ k)) % 2 ^ k = i := by
      rw [Nat.mod_add_mod, add_mod_sub_mod hs _ _ (by omega)]
      have h1 : head + i - head = i := by omega
      rw [h1, Nat.mod_eq_of_lt (by omega)]
    rw [hoff, if_pos hi]
  · rw [pop_ptrs_eq _ _ _ _ (Nat.mod_lt _ hs) (by omega)]
    apply List.map_congr_left
    intro i _
    congr 1
    rw [Nat.mod_add_mod]

/-- C8: all four counters stay below 2 ^ 32 on every reachable state (they are
wrapping 32-bit values, and the reachability relation wraps them modulo
2 ^ 32), size divides 2 ^ 32, and ring_count returns exactly the number of
handles currently held (the length of the abstract queue) while ring_avail
returns size - 1 minus that number — also across executions whose counters
wrap past 2 ^ 32 - 1. -/
theorem C8_wrapping_accounting (r : ring) (q : List Nat) (h : ReachAbs r q) :
    r.prodHead < U32 ∧ r.prodTail < U32 ∧ r.consHead < U32 ∧ r.consTail < U32 ∧
    r.size ∣ U32 ∧ ringAbs r = q ∧ ring_count r = q.length ∧
    ring_avail r = r.size - 1 - q.length := by
  obtain ⟨hV, habs⟩ := reachAbs_spec h
  have hlen : q.length = dist r := by
    rw [← habs, ringAbs_length, hV.count_eq]
  refine ⟨hV.ph_lt, hV.pt_lt, hV.ch_lt, hV.ct_lt, hV.size_dvd, habs, ?_, ?_⟩
  · rw [hV.count_eq, hlen]
  · rw [hV.avail_eq, hV.mask_eq, hlen]

/-- C9: a push or pop with requested n = 0 returns 0 and leaves the ring
unchanged, on all four paths and through both dispatchers, for either
behavior, on every sequentially reachable (hence quiescent) valid state; a
zero return therefore does not by itself distinguish a full (or empty) ring
from a zero-sized request. -/
theorem C9_zero_request (r : ring) (hV : Valid r) (objs : List Nat) (behavior : Nat) :
    ring_sp_push r objs 0 behavior = (r, 0) ∧
    ring_mp_push r objs 0 behavior = some (r, 0) ∧
    ring_sc_pop r 0 behavior = (r, [], 0) ∧
    ring_mc_pop r 0 behavior = some (r, [], 0) ∧
    ring_push r objs 0 behavior = some (r, 0) ∧
    ring_pop r 0 behavior = some (r, [], 0) := by
  have h1 : ring_sp_push r objs 0 behavior = (r, 0) := by
    rw [ring_sp_push_go objs behavior (by omega), pushResult_zero hV]
  have h2 : ring_sc_pop r 0 behavior = (r, [], 0) := by
    rw [ring_sc_pop_go behavior (by omega), popResult_zero hV, popOut_zero hV]
  have h3 : ring_mp_push r objs 0 behavior = some (r, 0) := by
    rw [ring_mp_push_eq objs 0 behavior hV.ph_eq.symm, h1]
  have h4 : ring_mc_pop r 0 behavior = some (r, [], 0) := by
    rw [ring_mc_pop_eq 0 behavior hV.ch_eq.symm, h2]
  refine ⟨h1, h3, h2, h4, ?_, ?_⟩
  · rw [ring_push]
    split_ifs
    · rw [h1]
    · exact h3
  · rw [ring_pop]
    split_ifs
    · rw [h2]
    · exact h4

/-- C10: immediately after ring_init and after every completed sequential
push or pop (on any of the four paths), prod.head = prod.tail and
cons.head = cons.tail: no reservation is left unpublished at quiescence. -/
theorem C10_quiescent (r : ring) (hR : Reachable r) :
    r.prodHead = r.prodTail ∧ r.consHead = r.consTail := by
  have hV := reachable_valid hR
  exact ⟨hV.ph_eq, hV.ch_eq⟩

/-- A concrete initialized ring of size 4 with both single-side flags. -/
def initRing4 : ring := ring_init (2 ^ 2) 3 [0, 0, 0, 0]

theorem initRing4_valid : Valid initRing4 :=
  valid_init 2 3 [0, 0, 0, 0] (by omega) (by decide)

theorem initRing4_reachAbs : ReachAbs initRing4 [] :=
  ReachAbs.init 2 3 [0, 0, 0, 0] (by omega) (by decide)

theorem initRing4_reachable : Reachable initRing4 :=
  ⟨[], initRing4_reachAbs⟩

/-- Witness for C2 at a concrete state and request. -/
theorem C2_witness :
    ((ring_sp_push initRing4 [5, 6] 2 RING_B_FIXED).2 = 2 ∧
        ringAbs (ring_sp_push initRing4 [5, 6] 2 RING_B_FIXED).1
          = ringAbs initRing4 ++ List.take 2 [5, 6] ∨
      (ring_sp_push initRing4 [5, 6] 2 RING_B_FIXED).2 = 0 ∧
        (ring_sp_push initRing4 [5, 6] 2 RING_B_FIXED).1 = initRing4) ∧
    ((ring_sc_pop initRing4 2 RING_B_FIXED).2.2 = 2 ∧
        (ring_sc_pop initRing4 2 RING_B_FIXED).2.1
          = List.take 2 (ringAbs initRing4) ∧
        (ring_sc_pop initRing4 2 RING_B_FIXED).2.1.length = 2 ∧
        ringAbs (ring_sc_pop initRing4 2 RING_B_FIXED).1
          = List.drop 2 (ringAbs initRing4) ∨
      (ring_sc_pop initRing4 2 RING_B_FIXED).2.2 = 0 ∧
        (ring_sc_pop initRing4 2 RING_B_FIXED).1 = initRing4 ∧
        (ring_sc_pop initRing4 2 RING_B_FIXED).2.1 = []) ∧
    ring_mp_push initRing4 [5, 6] 2 RING_B_FIXED
      = some (ring_sp_push initRing4 [5, 6] 2 RING_B_FIXED) ∧
    ring_mc_pop initRing4 2 RING_B_FIXED
      = some (ring_sc_pop initRing4 2 RING_B_FIXED) :=
  C2_fixed_all_or_nothing initRing4 initRing4_valid [5, 6] 2 (by decide)

/-- Witness for C3 at a concrete state and request. -/
theorem C3_witness :
    (ring_avail initRing4 = 0 →
      ring_sp_push initRing4 [5, 6] 2 RING_B_VARIABLE = (initRing4, 0)) ∧
    (0 < ring_avail initRing4 →
      (ring_sp_push initRing4 [5, 6] 2 RING_B_VARIABLE).2
          = min 2 (ring_avail initRing4) ∧
      ringAbs (ring_sp_push initRing4 [5, 6] 2 RING_B_VARIABLE).1
        = ringAbs initRing4 ++ List.take (min 2 (ring_avail initRing4)) [5, 6]) ∧
    (ring_count initRing4 = 0 →
      ring_sc_pop initRing4 2 RING_B_VARIABLE = (initRing4, [], 0)) ∧
    (0 < ring_count initRing4 →
      (ring_sc_pop initRing4 2 RING_B_VARIABLE).2.2
          = min 2 (ring_count initRing4) ∧
      (ring_sc_pop initRing4 2 RING_B_VARIABLE).2.1
        = List.take (min 2 (ring_count initRing4)) (ringAbs initRing4) ∧
      ringAbs (ring_sc_pop initRing4 2 RING_B_VARIABLE).1
        = List.drop (min 2 (ring_count initRing4)) (ringAbs initRing4)) :=
  C3_variable_best_effort initRing4 initRing4_valid [5, 6] 2 (by decide)

/-- Witness for C4 on a concrete operation sequence. -/
theorem C4_witness :
    (runC (ring_init (2 ^ 2) 3 [0, 0, 0, 0])
          [Op.push [10, 20] 2 RING_B_FIXED, Op.pop 1 RING_B_FIXED]).2.2
        ++ ringAbs (runC (ring_init (2 ^ 2) 3 [0, 0, 0, 0])
          [Op.push [10, 20] 2 RING_B_FIXED, Op.pop 1 RING_B_FIXED]).1
      = (runC (ring_init (2 ^ 2) 3 [0, 0, 0, 0])
          [Op.push [10, 20] 2 RING_B_FIXED, Op.pop 1 RING_B_FIXED]).2.1 ∧
    List.IsPrefix
      (runC (ring_init (2 ^ 2) 3 [0, 0, 0, 0])
        [Op.push [10, 20] 2 RING_B_FIXED, Op.pop 1 RING_B_FIXED]).2.2
      (runC (ring_init (2 ^ 2) 3 [0, 0, 0, 0])
        [Op.push [10, 20] 2 RING_B_FIXED, Op.pop 1 RING_B_FIXED]).2.1 :=
  C4_fifo 2 3 [0, 0, 0, 0] [Op.push [10, 20] 2 RING_B_FIXED, Op.pop 1 RING_B_FIXED]
    (by omega) (by decide) (by decide)

/-- Witness for C5 at concrete tail values, including a wrapped pair. -/
theorem C5_witness :
    ring_count (ring.mk true true 4 3 0 4294967295 0 7 [0, 0, 0, 0])
        + ring_avail (ring.mk true true 4 3 0 4294967295 0 7 [0, 0, 0, 0])
      = (ring.mk true true 4 3 0 4294967295 0 7 [0, 0, 0, 0]).size - 1 ∧
    ring_count (ring.mk true true 4 3 0 4294967295 0 7 [0, 0, 0, 0])
      ≤ (ring.mk true true 4 3 0 4294967295 0 7 [0, 0, 0, 0]).size - 1 :=
  C5_count_avail_sum (ring.mk true true 4 3 0 4294967295 0 7 [0, 0, 0, 0]) 2
    (by omega) (by decide) (by decide) (by decide) (by decide)

/-- Witness for C6 at a concrete reachable state. -/
theorem C6_witness :
    (ring_empty initRing4 = true ↔ ring_count initRing4 = 0) ∧
    (ring_full initRing4 = true ↔ ring_avail initRing4 = 0) ∧
    (initRing4.size ≠ 1 →
      ¬(ring_empty initRing4 = true ∧ ring_full initRing4 = true)) ∧
    (initRing4.size = 1 →
      ring_empty initRing4 = true ∧ ring_full initRing4 = true ∧
      ring_count initRing4 = 0) :=
  C6_empty_full_iff initRing4 initRing4_reachable

/-- Witness for C7 at a wrapped concrete transfer: size 4, head 3, n 2. -/
theorem C7_witness :
    (∀ i, i < 2 →
      (push_ptrs [0, 0, 0, 0] 4 (3 &&& (4 - 1)) [5, 6] 2).getD
          ((3 + i) &&& (4 - 1)) 0 = List.getD [5, 6] i 0) ∧
    pop_ptrs [0, 0, 0, 0] 4 (3 &&& (4 - 1)) 2
      = (List.range 2).map fun i => List.getD [0, 0, 0, 0] ((3 + i) &&& (4 - 1)) 0 :=
  C7_slot_indexing 4 2 3 2 [0, 0, 0, 0] [5, 6] (by decide) (by decide)
    (by decide) (by decide)

/-- Witness for C8 at a concrete reachable state with its abstract queue. -/
theorem C8_witness :
    initRing4.prodHead < U32 ∧ initRing4.prodTail < U32 ∧
    initRing4.consHead < U32 ∧ initRing4.consTail < U32 ∧
    initRing4.size ∣ U32 ∧ ringAbs initRing4 = [] ∧
    ring_count initRing4 = List.length ([] : List Nat) ∧
    ring_avail initRing4 = initRing4.size - 1 - List.length ([] : List Nat) :=
  C8_wrapping_accounting initRing4 [] initRing4_reachAbs

/-- Witness for C9 at a concrete state. -/
theorem C9_witness :
    ring_sp_push initRing4 [7] 0 RING_B_FIXED = (initRing4, 0) ∧
    ring_mp_push initRing4 [7] 0 RING_B_FIXED = some (initRing4, 0) ∧
    ring_sc_pop initRing4 0 RING_B_FIXED = (initRing4, [], 0) ∧
    ring_mc_pop initRing4 0 RING_B_FIXED = some (initRing4, [], 0) ∧
    ring_push initRing4 [7] 0 RING_B_FIXED = some (initRing4, 0) ∧
    ring_pop initRing4 0 RING_B_FIXED = some (initRing4, [], 0) :=
  C9_zero_request initRing4 initRing4_valid [7] RING_B_FIXED

/-- Witness for C10 at a concrete reachable state. -/
theorem C10_witness :
    initRing4.prodHead = initRing4.prodTail ∧
    initRing4.consHead = initRing4.consTail :=
  C10_quiescent initRing4 initRing4_reachable

end RingSpec
